import Mathlib

/-!
# Verification of the Trading-Lab quantitative core

A shallow embedding of the quantitative core of the Trading-Lab repository:
the lag-correlation scanner and best-leading-lag selector
(src/analytics/alternative_data.py), the trend-signal backtester
(src/analytics/alternative_data.py), and the volatility featurizer and
forecast evaluators (src/analytics/volatility.py).

Modelling conventions:
* pandas/numpy float columns become real numbers; the float NaN sentinel
  (missing window history, undefined statistics, shifted-out entries)
  becomes an explicit `Option ℝ` with `none` for NaN;
* a pandas DataFrame becomes a `List` of row structures, indexed from 0 as
  after `reset_index(drop=True)`;
* Python slice semantics (`xs[:-k]`, `xs[k:]`) become `List.take`/`List.drop`
  with truncating `ℕ` subtraction, which agrees with Python's clamping;
* operations that raise in the source (`iloc[-1]` on an empty frame,
  `252.0 / L` at `L = 0`) return `Except` errors;
* a float division `v / 0` with `v ≠ 0` produces an IEEE infinity in the
  source; infinities are not representable in `ℝ`, so the forward-return
  of a row with price 0 is modelled as undefined (`none`), exactly as the
  NaN produced by `0 / 0` is.  Theorems about prices therefore concern
  tables of genuine (nonzero, and where stated positive) prices.
-/

namespace TradingLab

/-- A row of the aligned (date, price, indicator) table produced by
`merge_trends_with_price`: columns `ds`, `price`, `trend` after the inner
join and `reset_index(drop=True)`.  Dates are modelled as integers. -/
structure Row where
  ds : ℤ
  price : ℝ
  trend : ℝ

/-- Default row used by `List.getD`; indices are always in range where it
matters. -/
def r0 : Row := ⟨0, 0, 0⟩

noncomputable section
open scoped Classical

/-- Mean of a list of reals (`Series.mean`): sum divided by length. -/
def listMean (xs : List ℝ) : ℝ := xs.sum / xs.length

/-- Source `np.corrcoef(x, y)[0, 1]`: the Pearson correlation
`Σ(xᵢ-x̄)(yᵢ-ȳ) / (√Σ(xᵢ-x̄)² · √Σ(yᵢ-ȳ)²)`.  When either series has zero
variance numpy returns NaN (`0/0`), modelled as `none`. -/
def pearson (xs ys : List ℝ) : Option ℝ :=
  let mx := listMean xs
  let my := listMean ys
  let sxy := ((xs.zip ys).map fun p => (p.1 - mx) * (p.2 - my)).sum
  let sxx := (xs.map fun a => (a - mx) ^ 2).sum
  let syy := (ys.map fun b => (b - my) ^ 2).sum
  if sxx = 0 ∨ syy = 0 then none else some (sxy / (Real.sqrt sxx * Real.sqrt syy))

/-- The body of the `for lag in range(-max_lag, max_lag + 1)` loop of
`compute_lagged_correlations`: slice the two columns according to the sign
of `lag` (`trend[-lag:]` / `price[:len(price)+lag]` for `lag < 0`,
`trend[:-lag]` / `price[lag:]` for `lag > 0`, whole columns at `lag = 0`)
and correlate, with NaN (`none`) when the overlap has fewer than 5
points. -/
def lagCorr (price trend : List ℝ) (lag : ℤ) : Option ℝ :=
  let x := if lag < 0 then trend.drop (-lag).toNat
    else if 0 < lag then trend.take (trend.length - lag.toNat)
    else trend
  let y := if lag < 0 then price.take (price.length - (-lag).toNat)
    else if 0 < lag then price.drop lag.toNat
    else price
  if x.length < 5 then none else pearson x y

/-- Source `compute_lagged_correlations(df, max_lag)`: one `(lag, correlation)`
entry per `lag` in `range(-max_lag, max_lag + 1)`, in loop order. -/
def compute_lagged_correlations (df : List Row) (max_lag : ℕ) : List (ℤ × Option ℝ) :=
  let price := df.map (·.price)
  let trend := df.map (·.trend)
  (List.range (2 * max_lag + 1)).map fun i : ℕ =>
    (-(max_lag : ℤ) + (i : ℤ), lagCorr price trend (-(max_lag : ℤ) + (i : ℤ)))

/-- The row filter of `find_best_leading_lag`:
`corr_df[corr_df["lag"] > 0].dropna(subset=["correlation"])` keeps an
entry exactly when its lag is positive and its correlation is defined. -/
def keepLeading (e : ℤ × Option ℝ) : Option (ℤ × ℝ) :=
  match e with
  | (lag, some c) => if 0 < lag then some (lag, c) else none
  | (_, none) => none

/-- Source `leading["correlation"].abs().values.argmax()` followed by
`leading.iloc[idx]`: the first entry attaining the maximal absolute
correlation (numpy's `argmax` keeps the first maximum, so a later entry
replaces the current best only on a strict increase). -/
def argmaxAbs (best : ℤ × ℝ) : List (ℤ × ℝ) → ℤ × ℝ
  | [] => best
  | e :: rest => if |best.2| < |e.2| then argmaxAbs e rest else argmaxAbs best rest

/-- Source `find_best_leading_lag(corr_df)`: restrict to positive lags with a
defined correlation; `None` when that restriction is empty, otherwise the
first entry of maximal absolute correlation. -/
def find_best_leading_lag (corr_df : List (ℤ × Option ℝ)) : Option (ℤ × ℝ) :=
  match corr_df.filterMap keepLeading with
  | [] => none
  | e :: rest => some (argmaxAbs e rest)

/-- Unfolding of `lagCorr` at a positive lag `k`: the slices are
`trend[:-k]` and `price[k:]`. -/
lemma lagCorr_pos (price trend : List ℝ) (k : ℕ) (hk : 1 ≤ k) :
    lagCorr price trend (k : ℤ) =
      (if (trend.take (trend.length - k)).length < 5 then none
       else pearson (trend.take (trend.length - k)) (price.drop k)) := by
  have h1 : ¬((k : ℤ) < 0) := by omega
  have h2 : (0 : ℤ) < (k : ℤ) := by omega
  simp only [lagCorr, if_neg h1, if_pos h2, Int.toNat_natCast]

/-- Unfolding of `lagCorr` at a negative lag `-k`: the slices are
`trend[k:]` and `price[:len-k]`. -/
lemma lagCorr_neg (price trend : List ℝ) (k : ℕ) (hk : 1 ≤ k) :
    lagCorr price trend (-(k : ℤ)) =
      (if (trend.drop k).length < 5 then none
       else pearson (trend.drop k) (price.take (price.length - k))) := by
  have h1 : (-(k : ℤ)) < 0 := by omega
  simp only [lagCorr, if_pos h1, neg_neg, Int.toNat_natCast]

/-- Unfolding of `lagCorr` at lag 0: the full series. -/
lemma lagCorr_zero (price trend : List ℝ) :
    lagCorr price trend 0 =
      (if trend.length < 5 then none else pearson trend price) := by
  simp only [lagCorr, lt_irrefl, if_false, if_neg (lt_irrefl (0 : ℤ))]

/-- The overlap paired at a given lag has `n - |lag|` points (`n` the
aligned length). -/
lemma lagCorr_small_overlap (price trend : List ℝ) (lag : ℤ)
    (h : trend.length - lag.natAbs < 5) : lagCorr price trend lag = none := by
  rcases lt_trichotomy lag 0 with hneg | hz | hpos
  · obtain ⟨k, hk, rfl⟩ : ∃ k : ℕ, 1 ≤ k ∧ lag = -(k : ℤ) :=
      ⟨lag.natAbs, by omega, by omega⟩
    rw [lagCorr_neg price trend k hk]
    rw [if_pos]
    simp only [List.length_drop]
    omega
  · subst hz
    rw [lagCorr_zero, if_pos]
    simpa using h
  · obtain ⟨k, hk, rfl⟩ : ∃ k : ℕ, 1 ≤ k ∧ lag = (k : ℤ) :=
      ⟨lag.natAbs, by omega, by omega⟩
    rw [lagCorr_pos price trend k hk]
    rw [if_pos]
    simp only [List.length_take]
    omega

/-- C1, stated over the embedding.  `scanLags` = `compute_lagged_correlations`:
the table has `2*maxLag + 1` entries, lags strictly increasing from
`-maxLag` to `+maxLag`; the entry at a positive lag pairs
`indicator[0 : n-lag]` with `price[lag : n]`, symmetrically at a negative
lag, the full series at lag 0; and any entry whose paired overlap has
fewer than 5 points is undefined. -/
def LagScanSpec (df : List Row) (max_lag : ℕ) : Prop :=
  let price := df.map (·.price)
  let trend := df.map (·.trend)
  let n := df.length
  let tbl := compute_lagged_correlations df max_lag
  tbl.length = 2 * max_lag + 1 ∧
  tbl.map Prod.fst = (List.range (2 * max_lag + 1)).map (fun i : ℕ => -(max_lag : ℤ) + (i : ℤ)) ∧
  List.Pairwise (· < ·) (tbl.map Prod.fst) ∧
  (∀ lag : ℤ, -(max_lag : ℤ) ≤ lag → lag ≤ (max_lag : ℤ) →
    (lag, lagCorr price trend lag) ∈ tbl) ∧
  (∀ k : ℕ, 1 ≤ k → lagCorr price trend (k : ℤ) =
    (if n - k < 5 then none else pearson (trend.take (n - k)) (price.drop k))) ∧
  (∀ k : ℕ, 1 ≤ k → lagCorr price trend (-(k : ℤ)) =
    (if n - k < 5 then none else pearson (trend.drop k) (price.take (n - k)))) ∧
  (lagCorr price trend 0 = if n < 5 then none else pearson trend price) ∧
  (∀ lag : ℤ, n - lag.natAbs < 5 → lagCorr price trend lag = none)

/-- Claim C1: for every aligned table and every `maxLag ≥ 0` (a natural
number here), the lag scan satisfies `LagScanSpec`: exactly `2*maxLag+1`
entries, lags strictly increasing from `-maxLag` to `maxLag`, entries
correlate the slices `indicator[0:n-lag]` vs `price[lag:n]` (resp. the
symmetric slices, resp. the whole series), and entries with paired
overlap below 5 points are undefined. -/
theorem lag_scan_spec (df : List Row) (max_lag : ℕ) : LagScanSpec df max_lag := by
  have hlen : (df.map (·.trend) : List ℝ).length = df.length := List.length_map _ _
  have hlenp : (df.map (·.price) : List ℝ).length = df.length := List.length_map _ _
  have h2 : (compute_lagged_correlations df max_lag).map Prod.fst =
      (List.range (2 * max_lag + 1)).map (fun i : ℕ => -(max_lag : ℤ) + (i : ℤ)) := by
    simp only [compute_lagged_correlations, List.map_map]
    rfl
  refine ⟨?_, h2, ?_, ?_, ?_, ?_, ?_, ?_⟩
  · simp only [compute_lagged_correlations, List.length_map, List.length_range]
  · rw [h2, List.pairwise_map]
    exact (List.pairwise_lt_range _).imp (fun h => by omega)
  · intro lag h1 h2
    unfold compute_lagged_correlations
    have h3 : -(max_lag : ℤ) + (((lag + (max_lag : ℤ)).toNat : ℕ) : ℤ) = lag := by omega
    have hmem : (lag + (max_lag : ℤ)).toNat ∈ List.range (2 * max_lag + 1) :=
      List.mem_range.mpr (by omega)
    exact List.mem_map.mpr ⟨_, hmem, by rw [h3]⟩
  · intro k hk
    rw [lagCorr_pos _ _ k hk]
    rw [List.length_take, hlen]
    have : min (df.length - k) df.length = df.length - k := min_eq_left (Nat.sub_le _ _)
    rw [this]
  · intro k hk
    rw [lagCorr_neg _ _ k hk]
    rw [List.length_drop, hlen, hlenp]
  · rw [lagCorr_zero, hlen]
  · intro lag h
    exact lagCorr_small_overlap _ _ lag (by rw [hlen]; exact h)

/-- Witness for C1 at a concrete table and window. -/
theorem lag_scan_spec_witness : LagScanSpec [⟨0, 100, 1⟩, ⟨1, 101, 2⟩] 2 :=
  lag_scan_spec [⟨0, 100, 1⟩, ⟨1, 101, 2⟩] 2

/-- The running best is always an element of the candidates. -/
lemma argmaxAbs_mem (l : List (ℤ × ℝ)) : ∀ b : ℤ × ℝ, argmaxAbs b l ∈ b :: l := by
  induction l with
  | nil => intro b; simp [argmaxAbs]
  | cons e rest ih =>
    intro b
    unfold argmaxAbs
    by_cases h : |b.2| < |e.2|
    · rw [if_pos h]
      exact List.mem_cons.mpr (Or.inr (ih e))
    · rw [if_neg h]
      rcases List.mem_cons.mp (ih b) with h1 | h1
      · rw [h1]; exact List.mem_cons_self _ _
      · exact List.mem_cons.mpr (Or.inr (List.mem_cons.mpr (Or.inr h1)))

/-- The result of `argmaxAbs` has the maximal absolute correlation. -/
lemma argmaxAbs_le (l : List (ℤ × ℝ)) :
    ∀ b : ℤ × ℝ, ∀ x ∈ b :: l, |x.2| ≤ |(argmaxAbs b l).2| := by
  induction l with
  | nil => intro b x hx; simp at hx; subst hx; simp [argmaxAbs]
  | cons e rest ih =>
    intro b x hx
    unfold argmaxAbs
    by_cases h : |b.2| < |e.2|
    · rw [if_pos h]
      rcases List.mem_cons.mp hx with h1 | h1
      · rw [h1]
        exact le_trans (le_of_lt h) (ih e e (List.mem_cons_self e rest))
      · exact ih e x h1
    · rw [if_neg h]
      rcases List.mem_cons.mp hx with h1 | h1
      · rw [h1]; exact ih b b (List.mem_cons_self b rest)
      · rcases List.mem_cons.mp h1 with h2 | h2
        · rw [h2]
          exact le_trans (not_lt.mp h) (ih b b (List.mem_cons_self b rest))
        · exact ih b x (List.mem_cons.mpr (Or.inr h2))

/-- numpy's `argmax` keeps the first maximum: if the final best is no
better than the initial one, it *is* the initial one (a later entry only
replaces the best on a strict increase). -/
lemma argmaxAbs_eq_self (l : List (ℤ × ℝ)) :
    ∀ b : ℤ × ℝ, |(argmaxAbs b l).2| ≤ |b.2| → argmaxAbs b l = b := by
  induction l with
  | nil => intro b _; rfl
  | cons e rest ih =>
    intro b hb
    unfold argmaxAbs at hb ⊢
    by_cases h : |b.2| < |e.2|
    · rw [if_pos h] at hb
      have := argmaxAbs_le rest e e (List.mem_cons_self e rest)
      exact absurd (lt_of_lt_of_le h this) (not_lt.mpr hb)
    · rw [if_neg h] at hb ⊢
      exact ih b hb

/-- With lags strictly ascending, the first maximum is the one with the
smallest lag: every candidate with the same absolute correlation as the
result has a lag at least as large. -/
lemma argmaxAbs_tiebreak (l : List (ℤ × ℝ)) :
    ∀ b : ℤ × ℝ, List.Pairwise (fun a c => a.1 < c.1) (b :: l) →
      ∀ x ∈ b :: l, |x.2| = |(argmaxAbs b l).2| → (argmaxAbs b l).1 ≤ x.1 := by
  induction l with
  | nil =>
    intro b _ x hx _
    simp at hx; subst hx; exact le_refl _
  | cons e rest ih =>
    intro b hp x hx heq
    unfold argmaxAbs at heq ⊢
    by_cases h : |b.2| < |e.2|
    · rw [if_pos h] at heq ⊢
      rcases List.mem_cons.mp hx with h1 | h1
      · have hle := argmaxAbs_le rest e e (List.mem_cons_self e rest)
        have hlt : |b.2| < |(argmaxAbs e rest).2| := lt_of_lt_of_le h hle
        rw [← h1, heq] at hlt
        exact absurd hlt (lt_irrefl _)
      · exact ih e hp.of_cons x h1 heq
    · rw [if_neg h] at heq ⊢
      have hsub : (b :: rest).Sublist (b :: e :: rest) :=
        List.Sublist.cons₂ b (List.sublist_cons_self e rest)
      have hp2 : List.Pairwise (fun a c => a.1 < c.1) (b :: rest) :=
        hp.sublist hsub
      rcases List.mem_cons.mp hx with h1 | h1
      · rw [h1] at heq ⊢
        exact ih b hp2 b (List.mem_cons_self _ _) heq
      · rcases List.mem_cons.mp h1 with h2 | h2
        · have h3 : |(argmaxAbs b rest).2| ≤ |b.2| := by
            rw [← heq, h2]; exact not_lt.mp h
          rw [argmaxAbs_eq_self rest b h3, h2]
          exact le_of_lt ((List.pairwise_cons.mp hp).1 e (List.mem_cons_self _ _))
        · exact ih b hp2 x (List.mem_cons.mpr (Or.inr h2)) heq

/-- Source `keepLeading` keeps exactly the positive-lag, defined-correlation rows
and strips the `Option`. -/
lemma keepLeading_eq_some (a : ℤ × Option ℝ) (e : ℤ × ℝ) :
    keepLeading a = some e ↔ a = (e.1, some e.2) ∧ 0 < e.1 := by
  obtain ⟨lag, oc⟩ := a
  cases oc with
  | none => simp [keepLeading]
  | some c =>
    simp only [keepLeading]
    by_cases h : 0 < lag
    · rw [if_pos h]
      constructor
      · intro hs
        have h1 : lag = e.1 ∧ c = e.2 := by
          injection hs with hs2
          exact ⟨congrArg Prod.fst hs2, congrArg Prod.snd hs2⟩
        obtain ⟨hl, hc⟩ := h1
        subst hl; subst hc; exact ⟨rfl, h⟩
      · rintro ⟨h1, h2⟩
        obtain ⟨hl, hc⟩ : lag = e.1 ∧ (some c : Option ℝ) = some e.2 := by
          refine ⟨congrArg Prod.fst h1, congrArg Prod.snd h1⟩
        injection hc with hc
        subst hl; subst hc; rfl
    · rw [if_neg h]
      constructor
      · intro hs; exact absurd hs (by simp)
      · rintro ⟨h1, h2⟩
        have : lag = e.1 := congrArg Prod.fst h1
        exact absurd (this ▸ h2) h

/-- Membership in the filtered qualifying list. -/
lemma mem_filterMap_keepLeading (tbl : List (ℤ × Option ℝ)) (e : ℤ × ℝ) :
    e ∈ tbl.filterMap keepLeading ↔ (e.1, some e.2) ∈ tbl ∧ 0 < e.1 := by
  rw [List.mem_filterMap]
  constructor
  · rintro ⟨a, ha, hk⟩
    obtain ⟨h1, h2⟩ := (keepLeading_eq_some a e).mp hk
    exact ⟨h1 ▸ ha, h2⟩
  · rintro ⟨h1, h2⟩
    exact ⟨(e.1, some e.2), h1, (keepLeading_eq_some _ e).mpr ⟨rfl, h2⟩⟩

/-- C2, stated over the embedding: `find_best_leading_lag` returns `none`
exactly when no entry has positive lag and defined correlation; otherwise
the returned `(lag, correlation)` has positive lag, occurs in the table,
has maximal absolute correlation among qualifying entries, and on ties
has the smallest qualifying lag. -/
def BestLagSpec (tbl : List (ℤ × Option ℝ)) : Prop :=
  (find_best_leading_lag tbl = none ↔ ∀ e ∈ tbl, ¬(0 < e.1 ∧ e.2.isSome)) ∧
  (∀ l c, find_best_leading_lag tbl = some (l, c) →
    0 < l ∧ (l, some c) ∈ tbl ∧
    (∀ l2 c2, (l2, some c2) ∈ tbl → 0 < l2 → |c2| ≤ |c|) ∧
    (∀ l2 c2, (l2, some c2) ∈ tbl → 0 < l2 → |c2| = |c| → l ≤ l2))

/-- Claim C2: for every lag-correlation table with strictly ascending lags
(the invariant of tables produced by the scanner), the best-leading-lag
selection satisfies `BestLagSpec`. -/
theorem best_leading_lag_spec (tbl : List (ℤ × Option ℝ))
    (hsorted : List.Pairwise (fun a b => a.1 < b.1) tbl) : BestLagSpec tbl := by
  have hq : ∀ e : ℤ × ℝ, e ∈ tbl.filterMap keepLeading ↔ (e.1, some e.2) ∈ tbl ∧ 0 < e.1 :=
    mem_filterMap_keepLeading tbl
  have hqsorted : List.Pairwise (fun a b : ℤ × ℝ => a.1 < b.1) (tbl.filterMap keepLeading) := by
    rw [List.pairwise_filterMap]
    refine hsorted.imp_of_mem ?_
    intro a b ha hb hab x hx y hy
    obtain ⟨hax, _⟩ := (keepLeading_eq_some a x).mp hx
    obtain ⟨hby, _⟩ := (keepLeading_eq_some b y).mp hy
    have h1 : a.1 = x.1 := by rw [hax]
    have h2 : b.1 = y.1 := by rw [hby]
    rw [← h1, ← h2]; exact hab
  constructor
  · unfold find_best_leading_lag
    rcases hfm : tbl.filterMap keepLeading with _ | ⟨e, rest⟩
    · refine iff_of_true rfl ?_
      intro a ha
      obtain ⟨l, oc⟩ := a
      rintro ⟨h1, h2⟩
      obtain ⟨c, hc⟩ := Option.isSome_iff_exists.mp h2
      simp only at hc h1
      have hmem2 : ((l, c) : ℤ × ℝ) ∈ tbl.filterMap keepLeading :=
        (hq (l, c)).mpr ⟨by rw [← hc]; exact ha, h1⟩
      rw [hfm] at hmem2
      exact absurd hmem2 (List.not_mem_nil _)
    · refine iff_of_false (by simp) ?_
      intro hall
      have hmem : argmaxAbs e rest ∈ e :: rest := argmaxAbs_mem rest e
      rw [← hfm] at hmem
      obtain ⟨h1, h2⟩ := (hq _).mp hmem
      exact hall _ h1 ⟨h2, by simp⟩
  · unfold find_best_leading_lag
    rcases hfm : tbl.filterMap keepLeading with _ | ⟨e, rest⟩
    · intro l c hfind
      exact absurd hfind (by simp)
    · intro l c hfind
      have hr : argmaxAbs e rest = (l, c) := by
        injection hfind with h
      have hmem : argmaxAbs e rest ∈ e :: rest := argmaxAbs_mem rest e
      rw [← hfm] at hmem
      obtain ⟨h1, h2⟩ := (hq _).mp hmem
      rw [hr] at h1 h2
      refine ⟨h2, h1, ?_, ?_⟩
      · intro l2 c2 hmem2 hpos2
        have hin : (l2, c2) ∈ e :: rest := by
          rw [← hfm]; exact (hq (l2, c2)).mpr ⟨hmem2, hpos2⟩
        have := argmaxAbs_le rest e (l2, c2) hin
        rw [hr] at this
        exact this
      · intro l2 c2 hmem2 hpos2 heq
        have hin : (l2, c2) ∈ e :: rest := by
          rw [← hfm]; exact (hq (l2, c2)).mpr ⟨hmem2, hpos2⟩
        have hqs2 : List.Pairwise (fun a b : ℤ × ℝ => a.1 < b.1) (e :: rest) := by
          rw [← hfm]; exact hqsorted
        have := argmaxAbs_tiebreak rest e hqs2 (l2, c2) hin (by rw [hr]; exact heq)
        rw [hr] at this
        exact this

/-- Witness for C2 at a concrete one-entry table. -/
theorem best_leading_lag_spec_witness :
    List.Pairwise (fun a b : ℤ × Option ℝ => a.1 < b.1) [((1 : ℤ), some (1 : ℝ))] ∧
      BestLagSpec [((1 : ℤ), some (1 : ℝ))] :=
  ⟨List.pairwise_singleton _ _, best_leading_lag_spec _ (List.pairwise_singleton _ _)⟩

/-! ## Signal backtester (`backtest_trend_signal`) -/

/-- Source `price` column lookup (indices used are always in range). -/
def priceAt (df : List Row) (i : ℕ) : ℝ := (df.getD i r0).price

/-- Source `trend` column lookup. -/
def trendAt (df : List Row) (i : ℕ) : ℝ := (df.getD i r0).trend

/-- Source `ds` column lookup. -/
def dsAt (df : List Row) (i : ℕ) : ℤ := (df.getD i r0).ds

/-- Source `df["price"].shift(-L) / df["price"] - 1.0` at row `i`: the forward
`L`-step return `price[i+L]/price[i] - 1`, NaN (`none`) when `i+L` is out
of range.  A row with `price[i] = 0` is also modelled as undefined: in
the source `0/0` is NaN and `v/0` an IEEE infinity, neither a real
number. -/
def futureRet (df : List Row) (L : ℤ) (i : ℕ) : Option ℝ :=
  if 0 ≤ (i : ℤ) + L ∧ (i : ℤ) + L < (df.length : ℤ) ∧ priceAt df i ≠ 0 then
    some (priceAt df ((i : ℤ) + L).toNat / priceAt df i - 1)
  else none

/-- The trailing window of `w` observations ending at row `i` (inclusive),
as used by `Series.rolling(w)`. -/
def rollWindow (col : List ℝ) (w i : ℕ) : List ℝ := (col.take (i + 1)).drop (i + 1 - w)

/-- Source `Series.rolling(w).mean()` at row `i`: NaN (`none`) until the window
is complete. -/
def rollMean (col : List ℝ) (w i : ℕ) : Option ℝ :=
  if 1 ≤ w ∧ w ≤ i + 1 then some (listMean (rollWindow col w i)) else none

/-- pandas sample standard deviation (`ddof = 1`):
`√(Σ(x-x̄)²/(n-1))`, NaN (`none`) for fewer than two observations. -/
def sampleStd (xs : List ℝ) : Option ℝ :=
  if xs.length ≤ 1 then none
  else some (Real.sqrt ((xs.map fun x => (x - listMean xs) ^ 2).sum / ((xs.length : ℝ) - 1)))

/-- Source `Series.rolling(w).std()` at row `i`: NaN until the window is
complete, and NaN for `w ≤ 1` (zero degrees of freedom). -/
def rollStd (col : List ℝ) (w i : ℕ) : Option ℝ :=
  if w ≤ i + 1 then sampleStd (rollWindow col w i) else none

/-- The `trend` column of the aligned table. -/
def trendCol (df : List Row) : List ℝ := df.map (·.trend)

/-- Source `trend_z = (trend - trend_mean) / trend_std` at row `i`.  NaN (`none`)
while the rolling window is incomplete; when `trend_std = 0` the window is
constant, so the numerator is 0 as well and pandas produces NaN (`0/0`),
modelled by the explicit zero test. -/
def trendZ (df : List Row) (w i : ℕ) : Option ℝ :=
  match rollMean (trendCol df) w i, rollStd (trendCol df) w i with
  | some m, some s => if s = 0 then none else some ((trendAt df i - m) / s)
  | _, _ => none

/-- Source `trend_slope = trend.diff()` at row `i`: NaN at the first row. -/
def trendSlope (df : List Row) (i : ℕ) : Option ℝ :=
  if 1 ≤ i then some (trendAt df i - trendAt df (i - 1)) else none

/-- The `signal` column: 0 by default, set to 1 exactly where
`(trend_z > z_threshold) & (trend_slope > 0)`; a NaN z-score or slope
compares as false in pandas, leaving the default 0. -/
def signal (df : List Row) (z_threshold : ℝ) (w i : ℕ) : ℕ :=
  match trendZ df w i, trendSlope df i with
  | some z, some s => if z_threshold < z ∧ 0 < s then 1 else 0
  | _, _ => 0

/-- Source `(1 + ret).cumprod()` with running accumulator. -/
def cumprodFrom (acc : ℝ) : List ℝ → List ℝ
  | [] => []
  | x :: xs => (acc * x) :: cumprodFrom (acc * x) xs

/-- Cumulative product of a list, as `Series.cumprod()`. -/
def cumprod (xs : List ℝ) : List ℝ := cumprodFrom 1 xs

/-- The rows kept by `dropna(subset=["future_ret_L"])`, by original
index. -/
def keptIdx (df : List Row) (L : ℤ) : List ℕ :=
  (List.range df.length).filter fun i => (futureRet df L i).isSome

/-- The `strategy_ret = signal * future_ret_L` column over the kept
rows. -/
def stratRets (df : List Row) (L : ℤ) (z : ℝ) (w : ℕ) : List ℝ :=
  (keptIdx df L).map fun i => (signal df z w i : ℝ) * (futureRet df L i).getD 0

/-- The `bh_ret = future_ret_L` column over the kept rows. -/
def bhRets (df : List Row) (L : ℤ) : List ℝ :=
  (keptIdx df L).map fun i => (futureRet df L i).getD 0

/-- One output row of the backtest:
`ds, signal, strategy_ret, bh_ret, equity_strategy, equity_bh`. -/
structure BtRow where
  ds : ℤ
  signal : ℕ
  strategy_ret : ℝ
  bh_ret : ℝ
  equity_strategy : ℝ
  equity_bh : ℝ

/-- The metrics dict of `backtest_trend_signal`. -/
structure BtMetrics where
  total_return_strategy : ℝ
  total_return_bh : ℝ
  sharpe_like : Option ℝ
  n_trades_periods : ℕ
  lag_used : ℤ

/-- Failures of the backtest call.  `emptyResult` models the `IndexError`
of `iloc[-1]` on an empty frame; `zeroDivision` the `ZeroDivisionError`
of `252.0 / L` at `L = 0` (reachable only if the strategy-return standard
deviation were positive); `invalidHorizon` is the `InvalidHorizonError`
of the specification's error taxonomy, which the source never raises. -/
inductive BtError
  | emptyResult
  | zeroDivision
  | invalidHorizon
  deriving DecidableEq

/-- The output rows of the backtest, in kept order: column `j` of the
post-`dropna` frame. -/
def btRows (df : List Row) (L : ℤ) (z : ℝ) (w : ℕ) : List BtRow :=
  (List.range (keptIdx df L).length).map fun j =>
    { ds := dsAt df ((keptIdx df L).getD j 0)
      signal := signal df z w ((keptIdx df L).getD j 0)
      strategy_ret := (stratRets df L z w).getD j 0
      bh_ret := (bhRets df L).getD j 0
      equity_strategy := (cumprod ((stratRets df L z w).map (fun r => 1 + r))).getD j 0
      equity_bh := (cumprod ((bhRets df L).map (fun r => 1 + r))).getD j 0 }

/-- The metrics record: totals are final equities minus 1; the
Sharpe-like ratio is `mean/std * √(252/L)`, NaN (`none`) when the
standard deviation is not positive (including the NaN std of a
single-row frame) or when `L < 0` (`√` of a negative is NaN). -/
def btMetricsOf (df : List Row) (L : ℤ) (z : ℝ) (w : ℕ) : BtMetrics :=
  { total_return_strategy :=
      (cumprod ((stratRets df L z w).map (fun r => 1 + r))).getLastD 0 - 1
    total_return_bh := (cumprod ((bhRets df L).map (fun r => 1 + r))).getLastD 0 - 1
    sharpe_like :=
      match sampleStd (stratRets df L z w) with
      | some s =>
        if 0 < s ∧ 0 < L then
          some (listMean (stratRets df L z w) / s * Real.sqrt (252 / (L : ℝ)))
        else none
      | none => none
    n_trades_periods := ((keptIdx df L).map (signal df z w)).sum
    lag_used := L }

/-- Source `backtest_trend_signal(df, best_lag, z_threshold, roll_window)`.
The source computes every column of the result and then fails with
`IndexError` when the post-`dropna` frame is empty (`iloc[-1]`), or with
`ZeroDivisionError` when `L = 0` and the strategy-return std is positive
(`252.0 / L`); otherwise it returns the frame and the metrics. -/
def backtest_trend_signal (df : List Row) (best_lag : ℤ) (z_threshold : ℝ)
    (roll_window : ℕ) : Except BtError (List BtRow × BtMetrics) :=
  if (keptIdx df best_lag).isEmpty then .error .emptyResult
  else if best_lag = 0 ∧
      (∃ s, sampleStd (stratRets df best_lag z_threshold roll_window) = some s ∧ 0 < s) then
    .error .zeroDivision
  else
    .ok (btRows df best_lag z_threshold roll_window,
         btMetricsOf df best_lag z_threshold roll_window)

/-- Membership in the kept-row index list. -/
lemma mem_keptIdx (df : List Row) (L : ℤ) (i : ℕ) :
    i ∈ keptIdx df L ↔ i < df.length ∧ (futureRet df L i).isSome := by
  unfold keptIdx
  rw [List.mem_filter, List.mem_range]

/-- At horizon 0 every kept row's forward return is exactly 0:
`price[i]/price[i] - 1` with a nonzero price. -/
lemma futureRet_zero (df : List Row) (i : ℕ) (h : i ∈ keptIdx df 0) :
    futureRet df 0 i = some 0 := by
  have hs := ((mem_keptIdx df 0 i).mp h).2
  unfold futureRet at hs ⊢
  by_cases hc : 0 ≤ (i : ℤ) + 0 ∧ (i : ℤ) + 0 < (df.length : ℤ) ∧ priceAt df i ≠ 0
  · rw [if_pos hc]
    have h1 : ((i : ℤ) + 0).toNat = i := by omega
    rw [h1, div_self hc.2.2]
    norm_num
  · rw [if_neg hc] at hs
    exact absurd hs (by simp)

/-- At horizon 0 the strategy returns are identically 0, whatever the
z-threshold and rolling window. -/
lemma stratRets_zero (df : List Row) (z : ℝ) (w : ℕ) :
    stratRets df 0 z w = (keptIdx df 0).map (fun _ => (0 : ℝ)) := by
  unfold stratRets
  refine List.map_congr_left ?_
  intro i hi
  rw [futureRet_zero df i hi]
  simp

/-- The sample standard deviation of an all-zero list is NaN (one point
or fewer) or 0 — never positive. -/
lemma sampleStd_all_zero (xs : List ℝ) (h : ∀ x ∈ xs, x = 0) :
    sampleStd xs = none ∨ sampleStd xs = some 0 := by
  unfold sampleStd
  by_cases hlen : xs.length ≤ 1
  · left; rw [if_pos hlen]
  · right
    rw [if_neg hlen]
    have hsum : xs.sum = 0 := List.sum_eq_zero h
    have hmean : listMean xs = 0 := by unfold listMean; rw [hsum, zero_div]
    have hsq : ((xs.map fun x => (x - listMean xs) ^ 2).sum : ℝ) = 0 := by
      refine List.sum_eq_zero ?_
      intro y hy
      obtain ⟨x, hx, rfl⟩ := List.mem_map.mp hy
      rw [h x hx, hmean]
      norm_num
    rw [hsq, zero_div, Real.sqrt_zero]

/-- Source `cumprodFrom` preserves length. -/
lemma cumprodFrom_length (xs : List ℝ) : ∀ acc, (cumprodFrom acc xs).length = xs.length := by
  induction xs with
  | nil => intro acc; rfl
  | cons x t ih =>
    intro acc
    unfold cumprodFrom
    rw [List.length_cons, List.length_cons, ih]

/-- Source `cumprod` preserves length. -/
lemma cumprod_length (xs : List ℝ) : (cumprod xs).length = xs.length :=
  cumprodFrom_length xs 1

/-- A cumulative product of positive factors from a positive seed is
positive everywhere. -/
lemma cumprodFrom_pos (xs : List ℝ) :
    ∀ acc, 0 < acc → (∀ x ∈ xs, 0 < x) → ∀ y ∈ cumprodFrom acc xs, 0 < y := by
  induction xs with
  | nil => intro acc _ _ y hy; exact absurd hy (List.not_mem_nil y)
  | cons x t ih =>
    intro acc hacc hall y hy
    unfold cumprodFrom at hy
    have hx : 0 < x := hall x (List.mem_cons_self x t)
    rcases List.mem_cons.mp hy with h1 | h1
    · rw [h1]; exact mul_pos hacc hx
    · exact ih (acc * x) (mul_pos hacc hx)
        (fun a ha => hall a (List.mem_cons.mpr (Or.inr ha))) y h1

/-- A cumulative product of positive factors is positive everywhere. -/
lemma cumprod_pos (xs : List ℝ) (h : ∀ x ∈ xs, 0 < x) : ∀ y ∈ cumprod xs, 0 < y :=
  cumprodFrom_pos xs 1 one_pos h

/-- Reading a list back off by index reproduces the list. -/
lemma map_getD_range {α : Type} (xs : List α) (d : α) :
    (List.range xs.length).map (fun j => xs.getD j d) = xs := by
  induction xs with
  | nil => rfl
  | cons a t ih =>
    rw [List.length_cons, List.range_succ_eq_map, List.map_cons, List.map_map]
    have h1 : ((fun j => (a :: t).getD j d) ∘ Nat.succ) = fun j => t.getD j d := rfl
    rw [h1, ih]
    rfl

/-- The `strategy_ret` column of the output frame. -/
lemma btRows_col_strategy (df : List Row) (L : ℤ) (z : ℝ) (w : ℕ) :
    (btRows df L z w).map (fun r => r.strategy_ret) = stratRets df L z w := by
  unfold btRows
  rw [List.map_map]
  have h1 : ((fun r : BtRow => r.strategy_ret) ∘ fun j =>
      ({ ds := dsAt df ((keptIdx df L).getD j 0)
         signal := signal df z w ((keptIdx df L).getD j 0)
         strategy_ret := (stratRets df L z w).getD j 0
         bh_ret := (bhRets df L).getD j 0
         equity_strategy := (cumprod ((stratRets df L z w).map (fun r => 1 + r))).getD j 0
         equity_bh := (cumprod ((bhRets df L).map (fun r => 1 + r))).getD j 0 } : BtRow)) =
      fun j => (stratRets df L z w).getD j 0 := rfl
  rw [h1]
  have h2 : (keptIdx df L).length = (stratRets df L z w).length := (List.length_map _ _).symm
  rw [h2, map_getD_range]

/-- The `bh_ret` column of the output frame. -/
lemma btRows_col_bh (df : List Row) (L : ℤ) (z : ℝ) (w : ℕ) :
    (btRows df L z w).map (fun r => r.bh_ret) = bhRets df L := by
  unfold btRows
  rw [List.map_map]
  have h1 : ((fun r : BtRow => r.bh_ret) ∘ fun j =>
      ({ ds := dsAt df ((keptIdx df L).getD j 0)
         signal := signal df z w ((keptIdx df L).getD j 0)
         strategy_ret := (stratRets df L z w).getD j 0
         bh_ret := (bhRets df L).getD j 0
         equity_strategy := (cumprod ((stratRets df L z w).map (fun r => 1 + r))).getD j 0
         equity_bh := (cumprod ((bhRets df L).map (fun r => 1 + r))).getD j 0 } : BtRow)) =
      fun j => (bhRets df L).getD j 0 := rfl
  rw [h1]
  have h2 : (keptIdx df L).length = (bhRets df L).length := (List.length_map _ _).symm
  rw [h2, map_getD_range]

/-- The `equity_strategy` column of the output frame. -/
lemma btRows_col_equity_strategy (df : List Row) (L : ℤ) (z : ℝ) (w : ℕ) :
    (btRows df L z w).map (fun r => r.equity_strategy) =
      cumprod ((stratRets df L z w).map (fun r => 1 + r)) := by
  unfold btRows
  rw [List.map_map]
  have h1 : ((fun r : BtRow => r.equity_strategy) ∘ fun j =>
      ({ ds := dsAt df ((keptIdx df L).getD j 0)
         signal := signal df z w ((keptIdx df L).getD j 0)
         strategy_ret := (stratRets df L z w).getD j 0
         bh_ret := (bhRets df L).getD j 0
         equity_strategy := (cumprod ((stratRets df L z w).map (fun r => 1 + r))).getD j 0
         equity_bh := (cumprod ((bhRets df L).map (fun r => 1 + r))).getD j 0 } : BtRow)) =
      fun j => (cumprod ((stratRets df L z w).map (fun r => 1 + r))).getD j 0 := rfl
  rw [h1]
  have h2 : (keptIdx df L).length =
      (cumprod ((stratRets df L z w).map (fun r => 1 + r))).length := by
    rw [cumprod_length, List.length_map]
    exact (List.length_map _ _).symm
  rw [h2, map_getD_range]

/-- The `equity_bh` column of the output frame. -/
lemma btRows_col_equity_bh (df : List Row) (L : ℤ) (z : ℝ) (w : ℕ) :
    (btRows df L z w).map (fun r => r.equity_bh) =
      cumprod ((bhRets df L).map (fun r => 1 + r)) := by
  unfold btRows
  rw [List.map_map]
  have h1 : ((fun r : BtRow => r.equity_bh) ∘ fun j =>
      ({ ds := dsAt df ((keptIdx df L).getD j 0)
         signal := signal df z w ((keptIdx df L).getD j 0)
         strategy_ret := (stratRets df L z w).getD j 0
         bh_ret := (bhRets df L).getD j 0
         equity_strategy := (cumprod ((stratRets df L z w).map (fun r => 1 + r))).getD j 0
         equity_bh := (cumprod ((bhRets df L).map (fun r => 1 + r))).getD j 0 } : BtRow)) =
      fun j => (cumprod ((bhRets df L).map (fun r => 1 + r))).getD j 0 := rfl
  rw [h1]
  have h2 : (keptIdx df L).length =
      (cumprod ((bhRets df L).map (fun r => 1 + r))).length := by
    rw [cumprod_length, List.length_map]
    exact (List.length_map _ _).symm
  rw [h2, map_getD_range]

/-- The backtest never produces the specification's
`InvalidHorizonError`: no branch of the source raises it. -/
lemma backtest_never_invalidHorizon (df : List Row) (L : ℤ) (z : ℝ) (w : ℕ) :
    backtest_trend_signal df L z w ≠ Except.error BtError.invalidHorizon := by
  unfold backtest_trend_signal
  split_ifs <;> simp

/-- The signal column only takes the values 0 and 1. -/
lemma signal_cases (df : List Row) (z : ℝ) (w i : ℕ) :
    signal df z w i = 0 ∨ signal df z w i = 1 := by
  unfold signal
  cases trendZ df w i with
  | none => cases trendSlope df i <;> simp
  | some zv =>
    cases trendSlope df i with
    | none => simp
    | some sv =>
      dsimp only
      by_cases h : z < zv ∧ 0 < sv
      · rw [if_pos h]; right; rfl
      · rw [if_neg h]; left; rfl

/-- The signal is 1 exactly when the z-score is defined and above the
threshold and the slope is defined and positive. -/
lemma signal_eq_one_iff (df : List Row) (z : ℝ) (w i : ℕ) :
    signal df z w i = 1 ↔
      (∃ zv, trendZ df w i = some zv ∧ z < zv) ∧
        (∃ sv, trendSlope df i = some sv ∧ 0 < sv) := by
  unfold signal
  cases hz : trendZ df w i with
  | none => simp [hz]
  | some zv =>
    cases hs : trendSlope df i with
    | none => simp [hs]
    | some sv =>
      dsimp only
      by_cases h : z < zv ∧ 0 < sv
      · rw [if_pos h]
        simp [hz, hs, h.1, h.2]
      · rw [if_neg h]
        constructor
        · intro h0
          exact absurd h0 (by norm_num)
        · rintro ⟨⟨zv2, hz2, hlt⟩, ⟨sv2, hs2, hlt2⟩⟩
          injection hz2 with e1
          injection hs2 with e2
          exact absurd ⟨by rw [e1]; exact hlt, by rw [e2]; exact hlt2⟩ h

/-- Rows with an incomplete rolling window have signal 0. -/
lemma signal_zero_of_incomplete (df : List Row) (z : ℝ) (w i : ℕ) (h : i + 1 < w) :
    signal df z w i = 0 := by
  have hstd : rollStd (trendCol df) w i = none := by
    unfold rollStd
    rw [if_neg (by omega)]
  unfold signal trendZ
  rw [hstd]
  cases rollMean (trendCol df) w i <;> simp

/-- Rows where the rolling standard deviation is 0 have signal 0 (the
z-score is NaN there). -/
lemma signal_zero_of_zero_std (df : List Row) (z : ℝ) (w i : ℕ)
    (h : rollStd (trendCol df) w i = some 0) : signal df z w i = 0 := by
  unfold signal trendZ
  rw [h]
  cases rollMean (trendCol df) w i <;> simp

/-- The first row has signal 0 (its slope is NaN). -/
lemma signal_zero_at_start (df : List Row) (z : ℝ) (w : ℕ) :
    signal df z w 0 = 0 := by
  have hs : trendSlope df 0 = none := by
    unfold trendSlope
    rw [if_neg (by omega)]
  unfold signal
  rw [hs]
  cases trendZ df w 0 <;> simp

/-- Inversion for a successful backtest call: the output is exactly the
frame of kept rows and the metrics record. -/
lemma backtest_ok_inv (df : List Row) (L : ℤ) (z : ℝ) (w : ℕ)
    (out : List BtRow × BtMetrics)
    (h : backtest_trend_signal df L z w = Except.ok out) :
    out = (btRows df L z w, btMetricsOf df L z w) := by
  unfold backtest_trend_signal at h
  by_cases h1 : (keptIdx df L).isEmpty
  · rw [if_pos h1] at h
    exact absurd h (by simp)
  · rw [if_neg h1] at h
    by_cases h2 : L = 0 ∧ ∃ s, sampleStd (stratRets df L z w) = some s ∧ 0 < s
    · rw [if_pos h2] at h
      exact absurd h (by simp)
    · rw [if_neg h2] at h
      injection h with h3
      exact h3.symm

/-- C4, stated over the embedding: the position (`signal`) is binary,
is 1 exactly when the z-score exceeds the threshold and the slope is
positive, and is 0 wherever the rolling window is incomplete, the
rolling standard deviation is zero, or the first difference is
undefined. -/
def SignalSpec (df : List Row) (z : ℝ) (w i : ℕ) : Prop :=
  (signal df z w i = 0 ∨ signal df z w i = 1) ∧
  (signal df z w i = 1 ↔
    (∃ zv, trendZ df w i = some zv ∧ z < zv) ∧
      (∃ sv, trendSlope df i = some sv ∧ 0 < sv)) ∧
  (i + 1 < w → signal df z w i = 0) ∧
  (rollStd (trendCol df) w i = some 0 → signal df z w i = 0) ∧
  (i = 0 → signal df z w i = 0)

/-- Claim C4: the position of every row is 1 exactly when the rolling
z-score exceeds the threshold and the indicator's first difference is
positive, and 0 in every other case (incomplete window, zero rolling
std, undefined first difference included); it is always in {0, 1}.  The
second conjunct carries the property to every row of a successful
backtest result. -/
theorem signal_binary_spec (df : List Row) (L : ℤ) (z : ℝ) (w i : ℕ) :
    SignalSpec df z w i ∧
      (∀ rows m, backtest_trend_signal df L z w = Except.ok (rows, m) →
        ∀ r ∈ rows, r.signal = 0 ∨ r.signal = 1) := by
  constructor
  · exact ⟨signal_cases df z w i, signal_eq_one_iff df z w i,
      signal_zero_of_incomplete df z w i,
      signal_zero_of_zero_std df z w i,
      fun h0 => h0 ▸ signal_zero_at_start df z w⟩
  · intro rows m hok r hr
    have hout := backtest_ok_inv df L z w (rows, m) hok
    rw [Prod.mk.injEq] at hout
    obtain ⟨h1, h2⟩ := hout
    rw [h1] at hr
    unfold btRows at hr
    obtain ⟨j, _, rfl⟩ := List.mem_map.mp hr
    exact signal_cases df z w _

/-- Witness for C4 at a concrete table, parameters and row. -/
theorem signal_binary_spec_witness :
    SignalSpec [⟨0, 1, 1⟩] 0 7 0 ∧
      (∀ rows m,
        backtest_trend_signal [⟨0, 1, 1⟩] 1 0 7 = Except.ok (rows, m) →
        ∀ r ∈ rows, r.signal = 0 ∨ r.signal = 1) :=
  signal_binary_spec [⟨0, 1, 1⟩] 1 0 7 0

/-- C5, stated over the embedding: in every successful backtest result
(the rows that survive `dropna(subset=["future_ret_L"])`), both equity
columns are the cumulative products of `1 + period return` seeded at
1.0, the first equity value is `1 + first return`, and all equity values
are non-negative whenever all period returns exceed -1. -/
def EquitySpec (df : List Row) (L : ℤ) (z : ℝ) (w : ℕ) : Prop :=
  ∀ out, backtest_trend_signal df L z w = Except.ok out →
    (out.1.map (fun r => r.equity_strategy) =
        cumprod ((out.1.map fun r => r.strategy_ret).map fun r => 1 + r) ∧
      out.1.map (fun r => r.equity_bh) =
        cumprod ((out.1.map fun r => r.bh_ret).map fun r => 1 + r)) ∧
    (∀ r rest, out.1 = r :: rest →
      r.equity_strategy = 1 + r.strategy_ret ∧ r.equity_bh = 1 + r.bh_ret) ∧
    ((∀ r ∈ out.1, -1 < r.strategy_ret) → ∀ r ∈ out.1, 0 ≤ r.equity_strategy) ∧
    ((∀ r ∈ out.1, -1 < r.bh_ret) → ∀ r ∈ out.1, 0 ≤ r.equity_bh)

/-- Claim C5: equity curves of the backtest are cumulative products of
`(1 + period_return)` from 1.0 over the rows kept after dropping those
without a defined forward return; hence the first equity value is
`1 + first return`, and every equity value is non-negative whenever all
period returns are `> -1`. -/
theorem equity_curve_spec (df : List Row) (L : ℤ) (z : ℝ) (w : ℕ) :
    EquitySpec df L z w := by
  intro out hok
  have hout := backtest_ok_inv df L z w out hok
  subst hout
  dsimp only
  · have hs := btRows_col_strategy df L z w
    have hb := btRows_col_bh df L z w
    have hes := btRows_col_equity_strategy df L z w
    have heb := btRows_col_equity_bh df L z w
    have hcurveS : (btRows df L z w).map (fun r => r.equity_strategy) =
        cumprod (((btRows df L z w).map fun r => r.strategy_ret).map fun r => 1 + r) := by
      rw [hs, hes]
    have hcurveB : (btRows df L z w).map (fun r => r.equity_bh) =
        cumprod (((btRows df L z w).map fun r => r.bh_ret).map fun r => 1 + r) := by
      rw [hb, heb]
    refine ⟨⟨hcurveS, hcurveB⟩, ?_, ?_, ?_⟩
    · intro r rest hrows
      constructor
      · have h1 := hcurveS
        rw [hrows] at h1
        simp only [List.map_cons, cumprod, cumprodFrom, one_mul, List.cons.injEq] at h1
        exact h1.1
      · have h1 := hcurveB
        rw [hrows] at h1
        simp only [List.map_cons, cumprod, cumprodFrom, one_mul, List.cons.injEq] at h1
        exact h1.1
    · intro hpos r hr
      have hmem : r.equity_strategy ∈ (btRows df L z w).map (fun r => r.equity_strategy) :=
        List.mem_map_of_mem _ hr
      rw [hcurveS] at hmem
      have hall : ∀ y ∈ ((btRows df L z w).map (fun r => r.strategy_ret)).map
          (fun r => 1 + r), 0 < y := by
        intro y hy
        obtain ⟨x, hx, rfl⟩ := List.mem_map.mp hy
        obtain ⟨r2, hr2, rfl⟩ := List.mem_map.mp hx
        have := hpos r2 hr2
        linarith
      exact le_of_lt (cumprod_pos _ hall _ hmem)
    · intro hpos r hr
      have hmem : r.equity_bh ∈ (btRows df L z w).map (fun r => r.equity_bh) :=
        List.mem_map_of_mem _ hr
      rw [hcurveB] at hmem
      have hall : ∀ y ∈ ((btRows df L z w).map (fun r => r.bh_ret)).map
          (fun r => 1 + r), 0 < y := by
        intro y hy
        obtain ⟨x, hx, rfl⟩ := List.mem_map.mp hy
        obtain ⟨r2, hr2, rfl⟩ := List.mem_map.mp hx
        have := hpos r2 hr2
        linarith
      exact le_of_lt (cumprod_pos _ hall _ hmem)

/-- Witness for C5 at a concrete table. -/
theorem equity_curve_spec_witness : EquitySpec [⟨0, 1, 1⟩, ⟨1, 2, 2⟩] 1 0 7 :=
  equity_curve_spec [⟨0, 1, 1⟩, ⟨1, 2, 2⟩] 1 0 7

/-- C3 amended, stated over the embedding: the source performs no
horizon validation.  A call with `L ≤ 0` is never rejected with
`InvalidHorizonError`; in particular at `L = 0` the call returns a
result whenever some row has a nonzero price (every forward return is 0
there, so no division error can occur either). -/
def NoHorizonCheck (df : List Row) (L : ℤ) (z : ℝ) (w : ℕ) : Prop :=
  backtest_trend_signal df L z w ≠ Except.error BtError.invalidHorizon ∧
  (L = 0 → (∃ r ∈ df, r.price ≠ 0) →
    ∃ out, backtest_trend_signal df L z w = Except.ok out)

/-- All strategy returns at horizon 0 are zero. -/
lemma stratRets_all_zero (df : List Row) (z : ℝ) (w : ℕ) :
    ∀ x ∈ stratRets df 0 z w, x = 0 := by
  rw [stratRets_zero]
  intro x hx
  obtain ⟨a, _, rfl⟩ := List.mem_map.mp hx
  rfl

/-- At horizon 0 the `ZeroDivisionError` guard can never fire: the
strategy-return standard deviation of an all-zero column is NaN or 0. -/
lemma no_zero_division_at_zero (df : List Row) (z : ℝ) (w : ℕ) :
    ¬((0 : ℤ) = 0 ∧ ∃ s, sampleStd (stratRets df 0 z w) = some s ∧ 0 < s) := by
  rintro ⟨-, s, hs, hspos⟩
  rcases sampleStd_all_zero _ (stratRets_all_zero df z w) with hn | h0
  · rw [hn] at hs
    exact absurd hs (by simp)
  · rw [h0] at hs
    injection hs with hs2
    rw [← hs2] at hspos
    exact absurd hspos (lt_irrefl 0)

/-- Claim C3 (amended): `backtest_trend_signal` does not validate the
horizon.  For `L ≤ 0` it never fails with `InvalidHorizonError`, and at
`L = 0` it returns a computed result whenever some price is nonzero.
(The claim as stated — rejection with `InvalidHorizonError` — is false
of the source; see the counterexample.) -/
theorem backtest_no_horizon_validation (df : List Row) (L : ℤ) (z : ℝ) (w : ℕ)
    (hL : L ≤ 0) : NoHorizonCheck df L z w := by
  refine ⟨backtest_never_invalidHorizon df L z w, ?_⟩
  intro h0 hex
  subst h0
  obtain ⟨r, hr, hrp⟩ := hex
  obtain ⟨i, hi, hget⟩ := List.mem_iff_getElem.mp hr
  have hpi : priceAt df i ≠ 0 := by
    unfold priceAt
    rw [List.getD_eq_getElem df r0 hi, hget]
    exact hrp
  have hsome : (futureRet df 0 i).isSome := by
    unfold futureRet
    rw [if_pos ⟨by omega, by omega, hpi⟩]
    rfl
  have hmem : i ∈ keptIdx df 0 := (mem_keptIdx df 0 i).mpr ⟨hi, hsome⟩
  have hne : ¬(keptIdx df 0).isEmpty := by
    rw [List.isEmpty_iff]
    exact List.ne_nil_of_mem hmem
  refine ⟨(btRows df 0 z w, btMetricsOf df 0 z w), ?_⟩
  unfold backtest_trend_signal
  rw [if_neg hne, if_neg (no_zero_division_at_zero df z w)]

/-- Claim C3 counterexample: at the one-row table with price 1 and horizon
`L = 0 ≤ 0`, the backtest does *not* fail with `InvalidHorizonError`,
contradicting the claim at this input. -/
theorem backtest_accepts_nonpositive_horizon_cex :
    backtest_trend_signal [⟨0, 1, 1⟩] 0 (1 / 2) 7 ≠
      Except.error BtError.invalidHorizon :=
  backtest_never_invalidHorizon [⟨0, 1, 1⟩] 0 (1 / 2) 7

/-- Witness for the amended C3 at a concrete table and horizon 0. -/
theorem backtest_no_horizon_validation_witness :
    (0 : ℤ) ≤ 0 ∧ NoHorizonCheck [⟨0, 1, 1⟩] 0 (1 / 2) 7 :=
  ⟨le_refl 0, backtest_no_horizon_validation [⟨0, 1, 1⟩] 0 (1 / 2) 7 (le_refl 0)⟩

/-- The benchmark-side view of a backtest output: the `ds`, `bh_ret` and
`equity_bh` columns and the total benchmark return. -/
def benchView (out : List BtRow × BtMetrics) : List (ℤ × ℝ × ℝ) × ℝ :=
  (out.1.map fun r => (r.ds, r.bh_ret, r.equity_bh), out.2.total_return_bh)

/-- Claim C6: for every aligned table and horizon, two backtest runs with
different `(zThreshold, rollWindow)` parameters agree exactly on the
benchmark side — same error or same `ds`/`bh_ret`/`equity_bh` columns
and total benchmark return; only strategy-side outputs may differ. -/
theorem benchmark_invariance (df : List Row) (L : ℤ) (z1 : ℝ) (w1 : ℕ)
    (z2 : ℝ) (w2 : ℕ) :
    Except.map benchView (backtest_trend_signal df L z1 w1) =
      Except.map benchView (backtest_trend_signal df L z2 w2) := by
  have hview : benchView (btRows df L z1 w1, btMetricsOf df L z1 w1) =
      benchView (btRows df L z2 w2, btMetricsOf df L z2 w2) := by
    unfold benchView btRows
    dsimp only
    rw [List.map_map, List.map_map]
    rfl
  unfold backtest_trend_signal
  by_cases hks : (keptIdx df L).isEmpty
  · rw [if_pos hks, if_pos hks]
  · rw [if_neg hks, if_neg hks]
    by_cases hL : L = 0
    · subst hL
      rw [if_neg (no_zero_division_at_zero df z1 w1),
          if_neg (no_zero_division_at_zero df z2 w2)]
      simp only [Except.map]
      rw [hview]
    · have hc1 : ¬(L = 0 ∧ ∃ s, sampleStd (stratRets df L z1 w1) = some s ∧ 0 < s) :=
        fun hc => hL hc.1
      have hc2 : ¬(L = 0 ∧ ∃ s, sampleStd (stratRets df L z2 w2) = some s ∧ 0 < s) :=
        fun hc => hL hc.1
      rw [if_neg hc1, if_neg hc2]
      simp only [Except.map]
      rw [hview]

/-- Witness-style instance of C6 at concrete parameters. -/
theorem benchmark_invariance_witness :
    Except.map benchView (backtest_trend_signal [⟨0, 1, 1⟩, ⟨1, 2, 2⟩] 1 (1 / 2) 7) =
      Except.map benchView (backtest_trend_signal [⟨0, 1, 1⟩, ⟨1, 2, 2⟩] 1 2 3) :=
  benchmark_invariance [⟨0, 1, 1⟩, ⟨1, 2, 2⟩] 1 (1 / 2) 7 2 3

/-! ## Volatility featurizer and forecast evaluators (volatility.py) -/

/-- Price lookup in a raw close-price series (the `y` column of
`load_price_data`, an excluded collaborator that hands the core an
already-materialized series). -/
def priceAtP (ps : List ℝ) (i : ℕ) : ℝ := ps.getD i 0

/-- Source `df["ret"] = np.log(df["y"] / df["y"].shift(1))` followed by
`fillna(0.0)`: the log return at row `i`, with the first row set to 0
rather than NaN. -/
def logRet (ps : List ℝ) (i : ℕ) : ℝ :=
  if i = 0 then 0 else Real.log (priceAtP ps i / priceAtP ps (i - 1))

/-- The `ret` column. -/
def retCol (ps : List ℝ) : List ℝ := (List.range ps.length).map (logRet ps)

/-- A row of the volatility feature frame after the final `dropna()`:
columns `y, ret, vol_short, vol_long, vol_short_ann, vol_long_ann` (all
defined once incomplete-window rows are dropped). -/
structure FeatRow where
  y : ℝ
  ret : ℝ
  vol_short : ℝ
  vol_long : ℝ
  vol_short_ann : ℝ
  vol_long_ann : ℝ

/-- Default feature row for `List.getD`. -/
def f0 : FeatRow := ⟨0, 0, 0, 0, 0, 0⟩

/-- Source `compute_volatility_features`: log returns, short/long rolling
sample standard deviations of the returns, annualization by `√252`, and
`dropna()` which removes exactly the rows where either rolling window is
incomplete. -/
def compute_volatility_features (ps : List ℝ) (window_short window_long : ℕ) :
    List FeatRow :=
  (List.range ps.length).filterMap fun i =>
    match rollStd (retCol ps) window_short i, rollStd (retCol ps) window_long i with
    | some vs, some vl =>
      some { y := priceAtP ps i, ret := logRet ps i, vol_short := vs, vol_long := vl,
             vol_short_ann := vs * Real.sqrt 252, vol_long_ann := vl * Real.sqrt 252 }
    | _, _ => none

/-- The feature row kept at original index `i` (its rolling statistics
read off the defined `rollStd` values). -/
def featRowAt (ps : List ℝ) (window_short window_long i : ℕ) : FeatRow :=
  { y := priceAtP ps i
    ret := logRet ps i
    vol_short := (rollStd (retCol ps) window_short i).getD 0
    vol_long := (rollStd (retCol ps) window_long i).getD 0
    vol_short_ann := (rollStd (retCol ps) window_short i).getD 0 * Real.sqrt 252
    vol_long_ann := (rollStd (retCol ps) window_long i).getD 0 * Real.sqrt 252 }

/-- The `ret` column has the length of the price series. -/
lemma retCol_length (ps : List ℝ) : (retCol ps).length = ps.length := by
  unfold retCol
  rw [List.length_map, List.length_range]

/-- A complete rolling window over a column has exactly `w` elements. -/
lemma rollWindow_length (col : List ℝ) (w i : ℕ) (hi : i < col.length)
    (hw : w ≤ i + 1) : (rollWindow col w i).length = w := by
  unfold rollWindow
  rw [List.length_drop, List.length_take]
  omega

/-- The rolling sample standard deviation is defined exactly on complete
windows of width at least 2. -/
lemma rollStd_isSome (col : List ℝ) (w i : ℕ) (hi : i < col.length) :
    (rollStd col w i).isSome ↔ 2 ≤ w ∧ w ≤ i + 1 := by
  unfold rollStd
  by_cases hw : w ≤ i + 1
  · rw [if_pos hw]
    unfold sampleStd
    rw [rollWindow_length col w i hi hw]
    by_cases h2 : w ≤ 1
    · rw [if_pos h2]
      simp
      omega
    · rw [if_neg h2]
      simp
      omega
  · rw [if_neg hw]
    simp
    omega

/-- A `filterMap` whose function is `some ∘ g` on rows satisfying `p`
and `none` elsewhere is the `filter`-then-`map`. -/
lemma filterMap_eq_filter_map {α β : Type} (l : List α) (f : α → Option β)
    (p : α → Prop) [DecidablePred p] (g : α → β)
    (h : ∀ a ∈ l, f a = if p a then some (g a) else none) :
    l.filterMap f = (l.filter fun a => p a).map g := by
  induction l with
  | nil => rfl
  | cons a t ih =>
    rw [List.filterMap_cons, List.filter_cons]
    have ha := h a (List.mem_cons_self a t)
    have ht : ∀ b ∈ t, f b = if p b then some (g b) else none :=
      fun b hb => h b (List.mem_cons.mpr (Or.inr hb))
    by_cases hp : p a
    · rw [ha, if_pos hp, if_pos (by simp [hp]), List.map_cons, ih ht]
    · rw [ha, if_neg hp, if_neg (by simp [hp]), ih ht]

/-- Counting the indices below `n` with at least `m - 1` predecessors. -/
lemma length_filter_range (n m : ℕ) :
    ((List.range n).filter fun i => m ≤ i + 1).length = n - (m - 1) := by
  induction n with
  | zero => simp
  | succ k ih =>
    rw [List.range_succ, List.filter_append, List.length_append, ih]
    by_cases h : m ≤ k + 1
    · have : (List.filter (fun i => decide (m ≤ i + 1)) [k]).length = 1 := by
        simp [h]
      rw [this]
      omega
    · have : (List.filter (fun i => decide (m ≤ i + 1)) [k]).length = 0 := by
        simp [h]
      rw [this]
      omega

/-- C7, stated over the embedding: the log return is 0 at the first row
and `ln(price[i]/price[i-1])` afterwards; the output keeps exactly the
rows where both rolling windows are complete; and its length is the
input length minus `max(shortWindow, longWindow) - 1`. -/
def FeaturesSpec (ps : List ℝ) (window_short window_long : ℕ) : Prop :=
  logRet ps 0 = 0 ∧
  (∀ i : ℕ, 1 ≤ i → logRet ps i = Real.log (priceAtP ps i / priceAtP ps (i - 1))) ∧
  compute_volatility_features ps window_short window_long =
    ((List.range ps.length).filter fun i => max window_short window_long ≤ i + 1).map
      (featRowAt ps window_short window_long) ∧
  (compute_volatility_features ps window_short window_long).length =
    ps.length - (max window_short window_long - 1)

/-- Claim C7: for a gap-free positive price series and sample-std windows
of width at least 2, `compute_volatility_features` defines the log
return as `ln(price[t]/price[t-1])` with a first value of 0, drops every
row with an incomplete rolling window, and returns exactly
`n - (max(shortWindow, longWindow) - 1)` rows.  (Positivity keeps the
source's float log returns finite, matching the real-valued model.) -/
theorem volatility_features_spec (ps : List ℝ) (window_short window_long : ℕ)
    (hpos : ∀ p ∈ ps, 0 < p) (hws : 2 ≤ window_short) (hwl : 2 ≤ window_long) :
    FeaturesSpec ps window_short window_long := by
  have hchar : compute_volatility_features ps window_short window_long =
      ((List.range ps.length).filter fun i => max window_short window_long ≤ i + 1).map
        (featRowAt ps window_short window_long) := by
    unfold compute_volatility_features
    refine filterMap_eq_filter_map _ _ _ _ ?_
    intro i hi
    have hin : i < (retCol ps).length := by
      rw [retCol_length]
      exact List.mem_range.mp hi
    by_cases hmax : max window_short window_long ≤ i + 1
    · rw [if_pos hmax]
      have hs : (rollStd (retCol ps) window_short i).isSome := by
        rw [rollStd_isSome _ _ _ hin]
        omega
      have hl : (rollStd (retCol ps) window_long i).isSome := by
        rw [rollStd_isSome _ _ _ hin]
        omega
      obtain ⟨vs, hvs⟩ := Option.isSome_iff_exists.mp hs
      obtain ⟨vl, hvl⟩ := Option.isSome_iff_exists.mp hl
      rw [hvs, hvl]
      unfold featRowAt
      rw [hvs, hvl]
      rfl
    · rw [if_neg hmax]
      have hcase : ¬(window_short ≤ i + 1) ∨ ¬(window_long ≤ i + 1) := by omega
      rcases hcase with hw | hw
      · have hnone : rollStd (retCol ps) window_short i = none := by
          unfold rollStd
          rw [if_neg hw]
        rw [hnone]
      · have hnone : rollStd (retCol ps) window_long i = none := by
          unfold rollStd
          rw [if_neg hw]
        rw [hnone]
        cases rollStd (retCol ps) window_short i <;> rfl
  refine ⟨?_, ?_, hchar, ?_⟩
  · unfold logRet
    rw [if_pos rfl]
  · intro i hi
    unfold logRet
    rw [if_neg (by omega)]
  · rw [hchar, List.length_map, length_filter_range]

/-- Witness for C7 at a concrete positive price series. -/
theorem volatility_features_spec_witness :
    (∀ p ∈ ([1, 2, 3] : List ℝ), 0 < p) ∧ 2 ≤ 2 ∧ 2 ≤ 3 ∧
      FeaturesSpec [1, 2, 3] 2 3 := by
  have hp : ∀ p ∈ ([1, 2, 3] : List ℝ), 0 < p := by
    intro p hp
    simp only [List.mem_cons, List.not_mem_nil, or_false] at hp
    rcases hp with rfl | rfl | rfl <;> norm_num
  exact ⟨hp, le_refl 2, by norm_num,
    volatility_features_spec [1, 2, 3] 2 3 hp (le_refl 2) (by norm_num)⟩

/-- Source `ret` column lookup in a feature frame. -/
def retAtF (df : List FeatRow) (i : ℕ) : ℝ := (df.getD i f0).ret

/-- Source `vol_short_ann` column lookup. -/
def vsaAtF (df : List FeatRow) (i : ℕ) : ℝ := (df.getD i f0).vol_short_ann

/-- Source `vol_long_ann` column lookup. -/
def vlaAtF (df : List FeatRow) (i : ℕ) : ℝ := (df.getD i f0).vol_long_ann

/-- Source `naive_vol_forecast(df, horizon)`: realized volatility proxy
`|ret|.shift(-horizon)` against today's `vol_long_ann`; rows without a
defined target are dropped (the forecast column of a feature frame is
always defined, so `dropna(subset=[...])` reduces to the target bound).
On an empty valid frame it returns the empty frame with NaN MAE/RMSE;
otherwise MAE is the mean absolute error and RMSE the root
mean-squared error of `(realized, forecast)` pairs. -/
def naive_vol_forecast (df : List FeatRow) (horizon : ℕ) :
    List (ℝ × ℝ) × (Option ℝ × Option ℝ) :=
  let valid := (List.range df.length).filter fun i => i + horizon < df.length
  let pairs := valid.map fun i => (|retAtF df (i + horizon)|, vlaAtF df i)
  if valid.isEmpty then ([], (none, none))
  else
    (pairs,
     (some (listMean (pairs.map fun p => |p.1 - p.2|)),
      some (Real.sqrt (listMean (pairs.map fun p => (p.1 - p.2) ^ 2)))))

/-- Claim C10: when no row has both a defined next-step realized target
and a defined long-window forecast (every index is within `horizon` of
the end), `naive_vol_forecast` does not raise: it returns the empty
predictions table with NaN (`none`) MAE and RMSE. -/
theorem naive_forecast_empty_spec (df : List FeatRow) (horizon : ℕ)
    (h : ∀ i, i < df.length → ¬(i + horizon < df.length)) :
    naive_vol_forecast df horizon = ([], (none, none)) := by
  unfold naive_vol_forecast
  have hnil : ((List.range df.length).filter fun i => i + horizon < df.length) = [] := by
    rw [List.filter_eq_nil_iff]
    intro a ha
    simp only [decide_eq_true_eq]
    exact h a (List.mem_range.mp ha)
  rw [hnil]
  simp

/-- Witness for C10 at a one-row frame and horizon 1. -/
theorem naive_forecast_empty_spec_witness :
    (∀ i, i < List.length [f0] → ¬(i + 1 < List.length [f0])) ∧
      naive_vol_forecast [f0] 1 = ([], (none, none)) := by
  have h : ∀ i, i < List.length [f0] → ¬(i + 1 < List.length [f0]) := by
    simp
  exact ⟨h, naive_forecast_empty_spec [f0] 1 h⟩

/-- The feature row assembled for original index `i` of the feature
frame: the lagged return, twice-lagged return, and lagged short/long
annualized volatilities — all read from rows strictly before `i`. -/
def xgbFeat (df : List FeatRow) (i : ℕ) : ℝ × ℝ × ℝ × ℝ :=
  (retAtF df (i - 1), retAtF df (i - 2), vsaAtF df (i - 1), vlaAtF df (i - 1))

/-- The regression target for original index `i`:
`realized_vol_next = |ret|.shift(-horizon)`. -/
def xgbTarget (df : List FeatRow) (horizon i : ℕ) : ℝ := |retAtF df (i + horizon)|

/-- The original indices surviving the `dropna()` of
`xgboost_vol_forecast`: the twice-lagged return needs `i ≥ 2` and the
target needs `i + horizon` in range. -/
def xgbKept (df : List FeatRow) (horizon : ℕ) : List ℕ :=
  (List.range df.length).filter fun i => 2 ≤ i ∧ i + horizon < df.length

/-- Source `split = int(len(X) * (1 - test_size))` (truncation equals floor for
the non-negative products that a `test_size` in `[0, 1]` yields). -/
def xgbSplit (df : List FeatRow) (horizon : ℕ) (test_size : ℝ) : ℕ :=
  (⌊((xgbKept df horizon).length : ℝ) * (1 - test_size)⌋).toNat

/-- Source `xgboost_vol_forecast(df, horizon, test_size)` with the learned
regressor abstracted as an injected `fit`/`predict` capability: build
lagged features and targets, split chronologically at `split`, fit on
the training prefix, predict and score on the test suffix.  An empty
test suffix makes the sklearn metric calls raise, modelled as `none`. -/
def xgboost_vol_forecast {M : Type} (df : List FeatRow) (horizon : ℕ) (test_size : ℝ)
    (fit : List (ℝ × ℝ × ℝ × ℝ) → List ℝ → M)
    (predict : M → List (ℝ × ℝ × ℝ × ℝ) → List ℝ) :
    Option (List (ℕ × ℝ) × (ℝ × ℝ) × M) :=
  let rows := xgbKept df horizon
  let X := rows.map (xgbFeat df)
  let Y := rows.map (xgbTarget df horizon)
  let split := xgbSplit df horizon test_size
  let model := fit (X.take split) (Y.take split)
  let preds := predict model (X.drop split)
  if (Y.drop split).isEmpty then none
  else
    some ((rows.drop split).zip preds,
          (listMean (((Y.drop split).zip preds).map fun p => |p.1 - p.2|),
           Real.sqrt (listMean (((Y.drop split).zip preds).map fun p => (p.1 - p.2) ^ 2))),
          model)

/-- C8, stated over the embedding: every kept row index is at least 2
with its target in range; its features are the lagged columns, and they
depend only on frame rows strictly before the row's own index (the
no-look-ahead hyperproperty); the split point is
`⌊n·(1 - testFraction)⌋` over the `n` assembled rows; the kept indices
are chronological and every training index precedes every test index;
and a successful call fits the model on exactly the training prefix and
produces/scores predictions on exactly the test suffix. -/
def LearnedSpec {M : Type} (df : List FeatRow) (horizon : ℕ) (test_size : ℝ)
    (fit : List (ℝ × ℝ × ℝ × ℝ) → List ℝ → M)
    (predict : M → List (ℝ × ℝ × ℝ × ℝ) → List ℝ) : Prop :=
  (∀ i ∈ xgbKept df horizon, 2 ≤ i ∧ i + horizon < df.length) ∧
  (∀ i ∈ xgbKept df horizon, xgbFeat df i =
    (retAtF df (i - 1), retAtF df (i - 2), vsaAtF df (i - 1), vlaAtF df (i - 1))) ∧
  (∀ i ∈ xgbKept df horizon, ∀ df2 : List FeatRow,
    (∀ j, j < i → df2.getD j f0 = df.getD j f0) → xgbFeat df2 i = xgbFeat df i) ∧
  ((xgbSplit df horizon test_size : ℤ) =
    ⌊((xgbKept df horizon).length : ℝ) * (1 - test_size)⌋) ∧
  List.Pairwise (· < ·) (xgbKept df horizon) ∧
  (∀ a ∈ (xgbKept df horizon).take (xgbSplit df horizon test_size),
    ∀ b ∈ (xgbKept df horizon).drop (xgbSplit df horizon test_size), a < b) ∧
  (∀ out, xgboost_vol_forecast df horizon test_size fit predict = some out →
    out.2.2 = fit (((xgbKept df horizon).take (xgbSplit df horizon test_size)).map (xgbFeat df))
        (((xgbKept df horizon).take (xgbSplit df horizon test_size)).map
          (xgbTarget df horizon)) ∧
    out.1 = ((xgbKept df horizon).drop (xgbSplit df horizon test_size)).zip
        (predict out.2.2
          (((xgbKept df horizon).drop (xgbSplit df horizon test_size)).map (xgbFeat df))))

/-- Claim C8: `xgboost_vol_forecast` builds each feature row from frame
rows strictly before its own index (never `t + horizon` or later),
splits the data chronologically (no shuffle) at
`⌊n·(1 - testFraction)⌋`, fits the injected forecaster on the training
prefix only, and predicts and scores on the test suffix only. -/
theorem learned_forecast_split_spec {M : Type} (df : List FeatRow) (horizon : ℕ)
    (test_size : ℝ) (fit : List (ℝ × ℝ × ℝ × ℝ) → List ℝ → M)
    (predict : M → List (ℝ × ℝ × ℝ × ℝ) → List ℝ)
    (h0 : 0 ≤ test_size) (h1 : test_size ≤ 1) :
    LearnedSpec df horizon test_size fit predict := by
  have hmem : ∀ i ∈ xgbKept df horizon, 2 ≤ i ∧ i + horizon < df.length := by
    intro i hi
    have h := (List.mem_filter.mp hi).2
    simpa using h
  have hpair : List.Pairwise (· < ·) (xgbKept df horizon) :=
    (List.pairwise_lt_range _).filter _
  refine ⟨hmem, fun i _ => rfl, ?_, ?_, hpair, ?_, ?_⟩
  · intro i hi df2 hagree
    have h2 : 2 ≤ i := (hmem i hi).1
    unfold xgbFeat retAtF vsaAtF vlaAtF
    rw [hagree (i - 1) (by omega), hagree (i - 2) (by omega)]
  · unfold xgbSplit
    refine Int.toNat_of_nonneg (Int.floor_nonneg.mpr ?_)
    have hn : (0 : ℝ) ≤ ((xgbKept df horizon).length : ℝ) := Nat.cast_nonneg _
    have ht : (0 : ℝ) ≤ 1 - test_size := by linarith
    exact mul_nonneg hn ht
  · intro a ha b hb
    have hsplit := hpair
    rw [← List.take_append_drop (xgbSplit df horizon test_size) (xgbKept df horizon)]
      at hsplit
    exact (List.pairwise_append.mp hsplit).2.2 a ha b hb
  · intro out hout
    unfold xgboost_vol_forecast at hout
    dsimp only at hout
    split at hout
    · exact absurd hout (by simp)
    · injection hout with h
      subst h
      constructor
      · dsimp only
        simp only [List.map_take]
      · dsimp only
        simp only [List.map_take, List.map_drop]

/-- Witness for C8 at a concrete (empty) frame, horizon and fraction,
with a trivial injected forecaster. -/
theorem learned_forecast_split_spec_witness :
    (0 : ℝ) ≤ 1 / 2 ∧ (1 / 2 : ℝ) ≤ 1 ∧
      LearnedSpec (M := Unit) [] 1 (1 / 2) (fun _ _ => ()) (fun _ _ => []) :=
  ⟨by norm_num, by norm_num,
    learned_forecast_split_spec [] 1 (1 / 2) (fun _ _ => ()) (fun _ _ => [])
      (by norm_num) (by norm_num)⟩

end

end TradingLab
